import Mathlib

/-!
Verification of the KZG10 polynomial commitment core
(src/polycommit/src/kzg10/mod.rs) against its natural-language specification.

The pairing groups are embedded in their exponent (discrete-log) model: every
group element of G1, G2 and GT is represented by its discrete logarithm, an
element of the scalar field `F`.  Group addition becomes field addition, scalar
multiplication becomes field multiplication, and the bilinear pairing becomes
the product of the two logarithms.  This is a faithful model of an honest
pairing provider on prime-order groups and keeps every definition executable.

Polynomials are dense low-degree-first coefficient lists, as in the
repository's polynomial abstraction.
-/

set_option maxRecDepth 4000

namespace KZG

/-- The recoverable error type of the KZG10 module (`crate::Error` as used by
src/polycommit/src/kzg10/mod.rs). -/
inductive KzgError where
  | DegreeIsZero
  | TooManyCoefficients (num_coefficients num_powers : Nat)
  | HidingBoundIsZero
  | HidingBoundToolarge (hiding_poly_degree num_powers : Nat)
  | MissingRng
  | Terminated
  | UnsupportedDegreeBound (bound : Nat)
  | IncorrectDegreeBound (poly_degree degree_bound supported_degree : Nat) (label : String)
  deriving DecidableEq, Repr

variable {F : Type} [Field F] [DecidableEq F]

/-- Modelled from the spec: point evaluation of a dense low-degree-first
coefficient list over the scalar field (the repository's generic polynomial
representation lives outside src/). -/
def evalPoly : List F → F → F
  | [], _ => 0
  | a :: t, x => a + x * evalPoly t x

/-- Modelled from the spec: the dense-polynomial representation invariant —
trailing (high-order) zero coefficients are stripped, as the repository's
`from_coefficients_vec` constructor does. -/
def truncate (l : List F) : List F :=
  (l.reverse.dropWhile (fun a => decide (a = 0))).reverse

/-- Modelled from the spec: the degree reported for a dense polynomial; the
zero polynomial (empty coefficient list) reports degree 0. -/
def degree (p : List F) : Nat := p.length - 1

/-- Modelled from the spec: the `is_zero` test on a dense coefficient list. -/
def polyIsZero (l : List F) : Bool := l.all (fun a => decide (a = 0))

/-- Modelled from the spec: division of a dense polynomial by the monic linear
divisor `(x - z)`, returning the raw quotient coefficients together with the
remainder.  Low-degree-first recursion: for `p = a + x·t`, if
`t = (x-z)·q + r` then `p = (x-z)·(r :: q) + (a + z·r)`. -/
def divmodLinear : List F → F → List F × F
  | [], _ => ([], 0)
  | a :: t, z =>
    let qr := divmodLinear t z
    (qr.2 :: qr.1, a + z * qr.2)

/-- Modelled from the spec: the quotient of the division of `p` by `(x - z)`
(remainder dropped), in the trailing-zero-stripped representation the
repository's polynomial division returns. -/
def divPoly (p : List F) (z : F) : List F := truncate (divmodLinear p z).1

/-- Coefficient-wise sum of two dense polynomials (the shorter list is padded
with zeros). -/
def polyAdd : List F → List F → List F
  | [], q => q
  | p, [] => p
  | a :: p, b :: q => (a + b) :: polyAdd p q

/-- Coefficient-wise difference of two dense polynomials. -/
def polySub (p q : List F) : List F := polyAdd p (q.map (fun b => -b))

/-- Tail worker for `mulLinear`: coefficients of `(x - z) · q` above the
constant term, where `prev` is the coefficient one degree below. -/
def mlAux (z : F) (prev : F) : List F → List F
  | [] => [prev]
  | b :: t => (prev - z * b) :: mlAux z b t

/-- Coefficients of the product `(x - z) · q`. -/
def mulLinear (z : F) : List F → List F
  | [] => []
  | a :: t => (-z * a) :: mlAux z a t

/-- Modelled from the spec: variable-base multi-scalar multiplication in the
exponent model — the inner product of the base logarithms with the scalars
(`Σ scalars[i] · bases[i]`, truncating at the shorter list as the zipping MSM
kernel does). -/
def msm (bases scalars : List F) : F := (List.zipWith (fun b s => s * b) bases scalars).sum

/-- Modelled from the spec: the bilinear pairing in the exponent model — the
target-group logarithm of `e(A, B)` is `dlog A · dlog B`. -/
def pairing (a b : F) : F := a * b

/-- Modelled from the spec: the multi-pairing product; in the exponent model
the target group is written additively, so the product of pairings is the sum
of the pairwise products and the target-group identity is `0`. -/
def product_of_pairings (l : List (F × F)) : F := (l.map (fun p => p.1 * p.2)).sum

/-- The universal parameters (SRS) produced by `KZG10::setup`, in the exponent
model.  `powers_of_gamma_g` is the dense list of values of the index map
(`BTreeMap` keyed consecutively from 0 in the source).  The two inverse maps
are kept as key/value association lists.  `Modelled from the spec` for the
parts whose Rust definition (data_structures.rs) is not under src/. -/
structure UniversalParams (F : Type) where
  powers_of_g : List F
  powers_of_gamma_g : List F
  h : F
  beta_h : F
  supported_degree_bounds : List Nat
  inverse_powers_of_g : List (Nat × F)
  inverse_neg_powers_of_h : List (Nat × F)
  prepared_h : F
  prepared_beta_h : F
  deriving DecidableEq, Repr

/-- The committer key: slices of the SRS power lists.  Modelled from the spec
(data_structures.rs is not under src/). -/
structure Powers (F : Type) where
  powers_of_g : List F
  powers_of_gamma_g : List F
  deriving DecidableEq, Repr

/-- `Powers::size`, the number of available `powers_of_g`. -/
def Powers.size (p : Powers F) : Nat := p.powers_of_g.length

/-- The verifier key.  Modelled from the spec (data_structures.rs is not under
src/); `prepared_h`/`prepared_beta_h` are the prepared forms, which in the
exponent model coincide with `h`/`beta_h` when honestly constructed. -/
structure VerifierKey (F : Type) where
  g : F
  gamma_g : F
  h : F
  beta_h : F
  prepared_h : F
  prepared_beta_h : F
  deriving DecidableEq, Repr

/-- Commitment randomness: the blinding polynomial.  Modelled from the spec
(data_structures.rs is not under src/). -/
structure Randomness (F : Type) where
  blinding_polynomial : List F
  deriving DecidableEq, Repr

/-- `Randomness::empty`: the zero blinding polynomial. -/
def Randomness.empty : Randomness F := ⟨[]⟩

/-- `Randomness::is_hiding`: whether the blinding polynomial is nonzero. -/
def Randomness.is_hiding (r : Randomness F) : Bool := !(polyIsZero r.blinding_polynomial)

/-- An evaluation proof: the witness commitment `w` and, when the commitment
was hiding, the blinding polynomial's evaluation `random_v`.  Modelled from
the spec (data_structures.rs is not under src/). -/
structure Proof (F : Type) where
  w : F
  random_v : Option F
  deriving DecidableEq, Repr

/-- A labeled polynomial, as consumed by `check_degrees_and_bounds`: a label,
dense coefficients, and an optional enforced degree bound.  Modelled from the
spec (the LabeledPolynomial type is not under src/). -/
structure LabeledPolynomial (F : Type) where
  label : String
  polynomial : List F
  degree_bound : Option Nat
  deriving DecidableEq, Repr

/-- The degree-bounds policy object (src/polycommit/src/kzg10/mod.rs, lines
46-54). -/
inductive KZG10DegreeBoundsConfig where
  | ALL
  | MARLIN
  | LIST (v : List Nat)
  | NONE
  deriving DecidableEq, Repr

/-- The MARLIN branch of `KZG10DegreeBoundsConfig::get_list`: the loop pushing
`cur - 2` while `cur - 2 <= max_degree` and doubling `cur`, started at 2.
The doubling of `cur` shrinks `max_degree + 3 - cur` by at least one per
step, so fuel `max_degree + 3` makes the fuel-exhaustion branch unreachable
and the fuel recursion is exactly the Rust loop. -/
def marlinGo (max_degree : Nat) : Nat → Nat → List Nat
  | 0, _ => []
  | fuel + 1, cur =>
    if cur - 2 ≤ max_degree then (cur - 2) :: marlinGo max_degree fuel (cur * 2)
    else []

/-- `KZG10DegreeBoundsConfig::get_list` (src/polycommit/src/kzg10/mod.rs,
lines 58-83). -/
def KZG10DegreeBoundsConfig.get_list (c : KZG10DegreeBoundsConfig) (max_degree : Nat) :
    List Nat :=
  match c with
  | .ALL => List.range max_degree
  | .MARLIN => marlinGo max_degree (max_degree + 3) 2
  | .LIST v => v
  | .NONE => []

/-- The worker loop of `skip_leading_zeros_and_convert_to_bigints`
(src/polycommit/src/kzg10/mod.rs, lines 503-510).  The Rust loop condition
`p.coeffs[i].is_zero() && i < p.coeffs.len()` indexes BEFORE bounds-testing,
so the embedding returns `none` (a panic) exactly when the index runs off the
end — which happens whenever every coefficient is zero. -/
def skip_go (coeffs : List F) : Nat → Nat → Option Nat
  | 0, _ => none
  | fuel + 1, i =>
    match coeffs[i]? with
    | none => none
    | some c => if c = 0 then skip_go coeffs fuel (i + 1) else some i

/-- The leading-zero scan of `skip_leading_zeros_and_convert_to_bigints`,
started at index 0.  The fuel `length + 1` strictly dominates the number of
loop steps (the loop advances through at most `length` zero coefficients and
then either stops at a nonzero one or panics indexing one past the end), so
the fuel-exhaustion branch is unreachable and the fuel recursion is exactly
the Rust loop. -/
def skip_leading_zeros (p : List F) : Option Nat := skip_go p (p.length + 1) 0

/-- `skip_leading_zeros_and_convert_to_bigints` (src/polycommit/src/kzg10/
mod.rs, lines 503-510); `convert_to_bigints` maps coefficients through the
faithful `to_repr` injection, the identity in this embedding.  `none` models
the out-of-bounds panic. -/
def skip_leading_zeros_and_convert_to_bigints (p : List F) : Option (Nat × List F) :=
  (skip_leading_zeros p).map (fun n => (n, p.drop n))

/-- `KZG10::check_degree_is_too_large` (src/polycommit/src/kzg10/mod.rs, lines
449-459). -/
def check_degree_is_too_large (degree num_powers : Nat) : Except KzgError Unit :=
  if num_powers < degree + 1 then
    .error (.TooManyCoefficients (degree + 1) num_powers)
  else
    .ok ()

/-- `KZG10::check_hiding_bound` (src/polycommit/src/kzg10/mod.rs, lines
461-474). -/
def check_hiding_bound (hiding_poly_degree num_powers : Nat) : Except KzgError Unit :=
  if hiding_poly_degree = 0 then
    .error .HidingBoundIsZero
  else if num_powers ≤ hiding_poly_degree then
    .error (.HidingBoundToolarge hiding_poly_degree num_powers)
  else
    .ok ()

/-- The `powers_of_beta` accumulation loop of `KZG10::setup` (src/polycommit/
src/kzg10/mod.rs, lines 114-122): push `cur` then multiply it by `beta`,
`max_degree` times. -/
def powers_of_beta_loop (β : F) : F → Nat → List F
  | _, 0 => []
  | cur, n + 1 => cur :: powers_of_beta_loop β (cur * β) n

/-- `KZG10::setup` (src/polycommit/src/kzg10/mod.rs, lines 95-222) in the
exponent model.  The sampled toxic waste `β` and generators `g`, `γg`, `h`
are passed explicitly (the randomness source is external).  Fixed-base MSMs
become scalar multiplications of the power sequence; `prepare` is the
identity on exponents.  `none` models the `unwrap`/indexing panics reachable
in the inverse-powers computations. -/
def setup (max_degree : Nat) (config : KZG10DegreeBoundsConfig) (produce_g2 : Bool)
    (β g γg h : F) : Option (Except KzgError (UniversalParams F)) :=
  if max_degree < 1 then some (.error .DegreeIsZero) else
  let powers_of_beta : List F := 1 :: powers_of_beta_loop β β max_degree
  let powers_of_g := powers_of_beta.map (fun s => s * g)
  let pgg := powers_of_beta.map (fun s => s * γg)
  let powers_of_gamma_g := pgg ++ [pgg.getD (pgg.length - 1) 0 * β]
  let list := config.get_list max_degree
  let supported_degree_bounds := if config = .NONE then [] else list
  match (if config = .NONE then some [] else
      list.mapM (fun i =>
        if i ≤ max_degree then (powers_of_g[max_degree - i]?).map (fun x => (i, x))
        else none)) with
  | none => none
  | some inverse_powers_of_g =>
  match (if produce_g2 = true ∧ config ≠ .NONE then
      list.mapM (fun i =>
        if i ≤ max_degree then
          if β ^ (max_degree - i) = 0 then none
          else some (i, (β ^ (max_degree - i))⁻¹ * h)
        else none)
    else some []) with
  | none => none
  | some inverse_neg_powers_of_h =>
    some (.ok
      { powers_of_g := powers_of_g
        powers_of_gamma_g := powers_of_gamma_g
        h := h
        beta_h := β * h
        supported_degree_bounds := supported_degree_bounds
        inverse_powers_of_g := inverse_powers_of_g
        inverse_neg_powers_of_h := inverse_neg_powers_of_h
        prepared_h := h
        prepared_beta_h := β * h })

/-- `KZG10::trim` (src/polycommit/src/kzg10/mod.rs, lines 531-551): raise a
requested degree of 1 to 2, then slice `powers_of_g[..=d]` and collect
`powers_of_gamma_g[&i]` for `i in 0..=d`.  `none` models the slice-range /
missing-key panics when the SRS is too small. -/
def trim (pp : UniversalParams F) (supported_degree : Nat) :
    Option (Powers F × VerifierKey F) :=
  let d := if supported_degree = 1 then supported_degree + 1 else supported_degree
  if d + 1 ≤ pp.powers_of_g.length ∧ d + 1 ≤ pp.powers_of_gamma_g.length then
    some
      ({ powers_of_g := pp.powers_of_g.take (d + 1)
         powers_of_gamma_g := pp.powers_of_gamma_g.take (d + 1) },
       { g := pp.powers_of_g.getD 0 0
         gamma_g := pp.powers_of_gamma_g.getD 0 0
         h := pp.h
         beta_h := pp.beta_h
         prepared_h := pp.prepared_h
         prepared_beta_h := pp.prepared_beta_h })
  else none

/-- `KZG10::commit` (src/polycommit/src/kzg10/mod.rs, lines 225-275).  The
cancellation flag is a plain boolean; the randomness source is a sampler
mapping the requested hiding degree to the blinding polynomial's coefficients
(`Randomness::rand` draws a polynomial of exactly that degree).  `none`
models the panic inside `skip_leading_zeros_and_convert_to_bigints`. -/
def commit (powers : Powers F) (polynomial : List F) (hiding_bound : Option Nat)
    (terminator : Bool) (rng : Option (Nat → List F)) :
    Option (Except KzgError (F × Randomness F)) :=
  match check_degree_is_too_large (degree polynomial) powers.size with
  | .error e => some (.error e)
  | .ok _ =>
  match skip_leading_zeros_and_convert_to_bigints polynomial with
  | none => none
  | some (num_leading_zeros, plain_coeffs) =>
  let c0 := msm (powers.powers_of_g.drop num_leading_zeros) plain_coeffs
  if terminator then some (.error .Terminated) else
  match hiding_bound with
  | some hiding_degree =>
    match rng with
    | none => some (.error .MissingRng)
    | some sample =>
      let randomness : Randomness F := ⟨sample hiding_degree⟩
      match check_hiding_bound (degree randomness.blinding_polynomial)
          powers.powers_of_gamma_g.length with
      | .error e => some (.error e)
      | .ok _ =>
        let random_commitment := msm powers.powers_of_gamma_g randomness.blinding_polynomial
        if terminator then some (.error .Terminated)
        else some (.ok (c0 + random_commitment, randomness))
  | none =>
    let randomness : Randomness F := Randomness.empty
    let random_commitment := msm powers.powers_of_gamma_g randomness.blinding_polynomial
    if terminator then some (.error .Terminated)
    else some (.ok (c0 + random_commitment, randomness))

/-- `KZG10::compute_witness_polynomial` (src/polycommit/src/kzg10/mod.rs,
lines 283-306): divide the polynomial (and, when hiding, the blinding
polynomial) by the linear divisor `(x - point)`. -/
def compute_witness_polynomial (polynomial : List F) (point : F) (randomness : Randomness F) :
    Except KzgError (List F × Option (List F)) :=
  let witness_polynomial := divPoly polynomial point
  let random_witness_polynomial :=
    if randomness.is_hiding then some (divPoly randomness.blinding_polynomial point)
    else none
  .ok (witness_polynomial, random_witness_polynomial)

/-- `KZG10::open_with_witness_polynomial` (src/polycommit/src/kzg10/mod.rs,
lines 308-341).  `none` models the leading-zero-scan panic on the witness
polynomial. -/
def open_with_witness_polynomial (powers : Powers F) (point : F) (randomness : Randomness F)
    (witness_polynomial : List F) (hiding_witness_polynomial : Option (List F)) :
    Option (Except KzgError (Proof F)) :=
  match check_degree_is_too_large (degree witness_polynomial) powers.size with
  | .error e => some (.error e)
  | .ok _ =>
  match skip_leading_zeros_and_convert_to_bigints witness_polynomial with
  | none => none
  | some (num_leading_zeros, witness_coeffs) =>
  let w := msm (powers.powers_of_g.drop num_leading_zeros) witness_coeffs
  match hiding_witness_polynomial with
  | some hwp =>
    let blinding_evaluation := evalPoly randomness.blinding_polynomial point
    some (.ok { w := w + msm powers.powers_of_gamma_g hwp, random_v := some blinding_evaluation })
  | none => some (.ok { w := w, random_v := none })

/-- `KZG10::open` (src/polycommit/src/kzg10/mod.rs, lines 344-362);
`openProof` because `open` is reserved in Lean. -/
def openProof (powers : Powers F) (polynomial : List F) (point : F) (rand : Randomness F) :
    Option (Except KzgError (Proof F)) :=
  match check_degree_is_too_large (degree polynomial) powers.size with
  | .error e => some (.error e)
  | .ok _ =>
  match compute_witness_polynomial polynomial point rand with
  | .error e => some (.error e)
  | .ok (witness_poly, hiding_witness_poly) =>
    open_with_witness_polynomial powers point rand witness_poly hiding_witness_poly

/-- `KZG10::check` (src/polycommit/src/kzg10/mod.rs, lines 366-385). -/
def check (vk : VerifierKey F) (commitment : F) (point value : F) (proof : Proof F) :
    Except KzgError Bool :=
  let inner1 := commitment - vk.g * value
  let inner2 :=
    match proof.random_v with
    | some random_v => inner1 - vk.gamma_g * random_v
    | none => inner1
  let lhs := pairing inner2 vk.h
  let rhs := pairing proof.w (vk.beta_h - vk.h * point)
  .ok (decide (lhs = rhs))

/-- Modelled from the spec: drawing a u128 from the randomness source and
promoting it into the scalar field. -/
def promote128 (u : Nat) : F := ((u % 2 ^ 128 : Nat) : F)

/-- The accumulation loop of `KZG10::batch_check` (src/polycommit/src/kzg10/
mod.rs, lines 410-424) over the zipped entries, carrying
(total_c, total_w, g_multiplier, gamma_g_multiplier); the randomness source
is the stream `us` of u128 draws, consumed one per iteration. -/
def bcLoop (us : Nat → Nat) :
    List ((F × F × F) × Proof F) → Nat → F → F × F × F × F → F × F × F × F
  | [], _, _, acc => acc
  | ((c, z, v), pr) :: rest, i, randomizer, (total_c, total_w, g_mul, gamma_mul) =>
    let w := pr.w
    let cv := w * z + c
    let g_mul' := g_mul + randomizer * v
    let gamma_mul' :=
      match pr.random_v with
      | some random_v => gamma_mul + randomizer * random_v
      | none => gamma_mul
    bcLoop us rest (i + 1) (promote128 (us i))
      (total_c + cv * randomizer, total_w + w * randomizer, g_mul', gamma_mul')

/-- `KZG10::batch_check` (src/polycommit/src/kzg10/mod.rs, lines 389-447). -/
def batch_check (vk : VerifierKey F) (commitments points values : List F)
    (proofs : List (Proof F)) (us : Nat → Nat) : Except KzgError Bool :=
  let entries := (commitments.zip (points.zip values)).zip proofs
  match bcLoop us entries 0 1 (0, 0, 0, 0) with
  | (total_c0, total_w, g_mul, gamma_mul) =>
    let total_c := total_c0 - vk.g * g_mul - vk.gamma_g * gamma_mul
    .ok (decide (product_of_pairings
      [(-total_w, vk.prepared_beta_h), (total_c, vk.prepared_h)] = 0))

/-- The batching-scalar sequence of the spec: `r_0 = 1`; for `i > 0`, `r_i`
is the (i-1)-th u128 draw promoted into the scalar field. -/
def rSeq (us : Nat → Nat) : Nat → F
  | 0 => 1
  | i + 1 => promote128 (us i)

/-- Indexed sum `Σ_j f (i0 + position) entry` over a list, used to state the
spec's closed-form batch accumulators. -/
def indexedSum {α : Type} (f : Nat → α → F) : List α → Nat → F
  | [], _ => 0
  | a :: t, i => f i a + indexedSum f t (i + 1)

/-- Follows the spec's words: `total_w = Σ r_i · w_i`. -/
def spec_total_w (entries : List ((F × F × F) × Proof F)) (r : Nat → F) : F :=
  indexedSum (fun i e => r i * e.2.w) entries 0

/-- Follows the spec's words:
`total_c = Σ r_i·(C_i + z_i·w_i) − g·(Σ r_i·v_i) − gamma_g·(Σ r_i·random_v_i)`
with `random_v_i` contributing 0 when absent. -/
def spec_total_c (entries : List ((F × F × F) × Proof F)) (r : Nat → F) (g γg : F) : F :=
  indexedSum (fun i e => r i * (e.1.1 + e.1.2.1 * e.2.w)) entries 0
    - g * indexedSum (fun i e => r i * e.1.2.2) entries 0
    - γg * indexedSum (fun i e => r i * (e.2.random_v.getD 0)) entries 0

/-- Rust `slice::binary_search` worker on a `Nat` slice: the standard
half-interval loop (`mid = left + (right - left) / 2`), returning the found
index or the insertion point.  On an unsorted slice the result is whatever
this deterministic procedure computes. -/
def binary_search_go (l : List Nat) (t : Nat) : Nat → Nat → Nat → Except Nat Nat
  | 0, left, _ => .error left
  | fuel + 1, left, right =>
    if left < right then
      let mid := left + (right - left) / 2
      let v := l.getD mid 0
      if v < t then binary_search_go l t fuel (mid + 1) right
      else if t < v then binary_search_go l t fuel left mid
      else .ok mid
    else .error left

/-- Rust `slice::binary_search` over the whole slice.  Each loop step shrinks
the interval `right - left` by at least one, so fuel `length + 1` makes the
fuel-exhaustion branch unreachable and the fuel recursion is exactly the Rust
loop. -/
def binary_search (l : List Nat) (t : Nat) : Except Nat Nat :=
  binary_search_go l t (l.length + 1) 0 l.length

/-- `KZG10::check_degrees_and_bounds` (src/polycommit/src/kzg10/mod.rs, lines
476-500). -/
def check_degrees_and_bounds (supported_degree max_degree : Nat)
    (enforced_degree_bounds : Option (List Nat)) (p : LabeledPolynomial F) :
    Except KzgError Unit :=
  match p.degree_bound with
  | none => .ok ()
  | some bound =>
    match enforced_degree_bounds with
    | none => .error (.UnsupportedDegreeBound bound)
    | some l =>
      match binary_search l bound with
      | .error _ => .error (.UnsupportedDegreeBound bound)
      | .ok _ =>
        if bound < degree p.polynomial ∨ max_degree < bound then
          .error (.IncorrectDegreeBound (degree p.polynomial) bound supported_degree p.label)
        else
          .ok ()

deriving instance DecidableEq for Except

instance : Fact (Nat.Prime 101) := ⟨by norm_num⟩

/-- Default universal parameters, used as the fallback of extractions. -/
def dfltPP : UniversalParams (ZMod 101) := ⟨[], [], 0, 0, [], [], [], 0, 0⟩

/-- Extract the success value of a fallible computation, with a fallback. -/
def getOkD {α : Type} (d : α) : Option (Except KzgError α) → α
  | some (.ok a) => a
  | _ => d

/-- Concrete SRS at max_degree 4 over `ZMod 101` (β = 2, g = 3, γg = 5, h = 7). -/
def ppEx : UniversalParams (ZMod 101) := getOkD dfltPP (setup 4 .NONE false 2 3 5 7)

/-- Concrete SRS at max_degree 1 over `ZMod 101` (β = 2, g = 3, γg = 5, h = 7). -/
def ppEx1 : UniversalParams (ZMod 101) := getOkD dfltPP (setup 1 .NONE false 2 3 5 7)

/-- Concrete SRS at max_degree 2 over `ZMod 101` (β = 2, g = 3, γg = 5, h = 7). -/
def ppEx2 : UniversalParams (ZMod 101) := getOkD dfltPP (setup 2 .NONE false 2 3 5 7)

/-- Concrete trimmed keys derived from `ppEx` at supported degree 4. -/
def trimEx : Powers (ZMod 101) × VerifierKey (ZMod 101) :=
  (trim ppEx 4).getD (⟨[], []⟩, ⟨0, 0, 0, 0, 0, 0⟩)

/-- Concrete committer key. -/
def powersEx : Powers (ZMod 101) := trimEx.1

/-- Concrete verifier key. -/
def vkEx : VerifierKey (ZMod 101) := trimEx.2

/-- Concrete non-hiding commitment to `[1, 2, 3]`. -/
def commitEx : ZMod 101 × Randomness (ZMod 101) :=
  getOkD (0, Randomness.empty) (commit powersEx [1, 2, 3] none false none)

/-- Concrete commitment value. -/
def cEx : ZMod 101 := commitEx.1

/-- Concrete opening proof for `[1, 2, 3]` at the point 10. -/
def prEx : Proof (ZMod 101) :=
  getOkD ⟨0, none⟩ (openProof powersEx [1, 2, 3] 10 Randomness.empty)

/-- A concrete well-formed blinding sampler: degree-d coefficients, all 1. -/
def sampleEx (d : Nat) : List (ZMod 101) := List.replicate d 0 ++ [1]

/-- Concrete hiding commitment to `[1, 2, 3]` with hiding degree 2. -/
def commitHEx : ZMod 101 × Randomness (ZMod 101) :=
  getOkD (0, Randomness.empty) (commit powersEx [1, 2, 3] (some 2) false (some sampleEx))

/-- Concrete hiding opening proof for `[1, 2, 3]` at the point 10. -/
def prHEx : Proof (ZMod 101) :=
  getOkD ⟨0, none⟩ (openProof powersEx [1, 2, 3] 10 commitHEx.2)

/-! ### Polynomial algebra lemmas -/

theorem divmod_snd_eq_eval (p : List F) (z : F) :
    (divmodLinear p z).2 = evalPoly p z := by
  induction p with
  | nil => simp [divmodLinear, evalPoly]
  | cons a t ih => simp [divmodLinear, evalPoly, ih]

theorem divmod_fst_length (p : List F) (z : F) :
    (divmodLinear p z).1.length = p.length := by
  induction p with
  | nil => simp [divmodLinear]
  | cons a t ih => simp [divmodLinear, ih]

theorem eval_divmod (p : List F) (z y : F) :
    evalPoly p y = (y - z) * evalPoly (divmodLinear p z).1 y + evalPoly p z := by
  induction p with
  | nil => simp [divmodLinear, evalPoly]
  | cons a t ih =>
    simp only [divmodLinear, evalPoly, divmod_snd_eq_eval]
    rw [ih]
    ring

theorem evalPoly_replicate_zero (k : Nat) (x : F) :
    evalPoly (List.replicate k (0 : F)) x = 0 := by
  induction k with
  | zero => simp [evalPoly]
  | succ m ih => simp [List.replicate, evalPoly, ih]

theorem evalPoly_append_replicate_zero (q : List F) (k : Nat) (x : F) :
    evalPoly (q ++ List.replicate k (0 : F)) x = evalPoly q x := by
  induction q with
  | nil => simp [evalPoly, evalPoly_replicate_zero]
  | cons a t ih => simp [evalPoly, ih]

theorem truncate_decomposition (l : List F) :
    ∃ k, l = truncate l ++ List.replicate k (0 : F) := by
  have hzeros : (l.reverse.takeWhile (fun a => decide (a = 0))).reverse
      = List.replicate (l.reverse.takeWhile (fun a => decide (a = 0))).length (0 : F) := by
    have h1 : ∀ b ∈ (l.reverse.takeWhile (fun a => decide (a = 0))).reverse, b = (0 : F) := by
      intro b hb
      have hb' : b ∈ l.reverse.takeWhile (fun a => decide (a = 0)) := List.mem_reverse.mp hb
      simpa using List.mem_takeWhile_imp hb'
    have h2 := List.eq_replicate_of_mem h1
    simpa [List.length_reverse] using h2
  refine ⟨(l.reverse.takeWhile (fun a => decide (a = 0))).length, ?_⟩
  conv_lhs => rw [← List.reverse_reverse l,
    ← List.takeWhile_append_dropWhile (fun a => decide (a = 0)) l.reverse]
  rw [List.reverse_append, hzeros]
  rfl

theorem evalPoly_truncate (l : List F) (x : F) :
    evalPoly (truncate l) x = evalPoly l x := by
  obtain ⟨k, hk⟩ := truncate_decomposition l
  conv_rhs => rw [hk]
  rw [evalPoly_append_replicate_zero]

theorem eval_divPoly (p : List F) (z y : F) :
    evalPoly p y = (y - z) * evalPoly (divPoly p z) y + evalPoly p z := by
  rw [divPoly, evalPoly_truncate]
  exact eval_divmod p z y

theorem truncate_length_le (l : List F) : (truncate l).length ≤ l.length := by
  have h := (List.dropWhile_sublist (p := fun a => decide (a = 0))
    (l := l.reverse)).length_le
  simpa [truncate] using h

theorem truncate_append_zero (l : List F) : truncate (l ++ [0]) = truncate l := by
  simp [truncate, List.reverse_append, List.dropWhile_cons]

theorem truncate_append_replicate_zero (l : List F) (k : Nat) :
    truncate (l ++ List.replicate k (0 : F)) = truncate l := by
  induction k with
  | zero => simp
  | succ m ih =>
    rw [List.replicate_succ' m (0 : F), ← List.append_assoc, truncate_append_zero, ih]

theorem divmod_fst_append_zero (p : List F) (z : F) (hp : p ≠ []) :
    ∃ q : List F, (divmodLinear p z).1 = q ++ [0] ∧ q.length = p.length - 1 := by
  induction p with
  | nil => exact absurd rfl hp
  | cons a t ih =>
    cases t with
    | nil => exact ⟨[], by simp [divmodLinear], by simp⟩
    | cons b s =>
      obtain ⟨q, hq, hlen⟩ := ih (by simp)
      refine ⟨(divmodLinear (b :: s) z).2 :: q, ?_, ?_⟩
      · simp [divmodLinear]
        exact hq
      · simp at hlen ⊢
        omega

theorem divPoly_length_le (p : List F) (z : F) :
    (divPoly p z).length ≤ p.length - 1 := by
  cases hp : p with
  | nil => simp [divPoly, divmodLinear, truncate]
  | cons a t =>
    obtain ⟨q, hq, hlen⟩ := divmod_fst_append_zero (a :: t) z (by simp)
    rw [divPoly, hq, truncate_append_zero]
    calc (truncate q).length ≤ q.length := truncate_length_le q
      _ = (a :: t).length - 1 := hlen

theorem polyIsZero_eval (l : List F) (h : polyIsZero l = true) (x : F) :
    evalPoly l x = 0 := by
  induction l with
  | nil => simp [evalPoly]
  | cons a t ih =>
    simp only [polyIsZero, List.all_cons, Bool.and_eq_true, decide_eq_true_eq] at h
    have ht : polyIsZero t = true := h.2
    simp [evalPoly, h.1, ih ht]

/-! ### MSM and leading-zero lemmas -/

theorem msm_nil_scalars (bases : List F) : msm bases ([] : List F) = 0 := by
  simp [msm]

theorem msm_cons (b : F) (bases : List F) (s : F) (scalars : List F) :
    msm (b :: bases) (s :: scalars) = s * b + msm bases scalars := by
  simp [msm]

theorem msm_map_range_drop (β c : F) (q : List F) (k n : Nat) (h : k + q.length ≤ n) :
    msm (((List.range n).map (fun i => β ^ i * c)).drop k) q
      = c * (β ^ k * evalPoly q β) := by
  induction q generalizing k with
  | nil => simp [msm, evalPoly]
  | cons a t ih =>
    have hk : k < n := by simp at h; omega
    have hlen : k < ((List.range n).map (fun i => β ^ i * c)).length := by simpa using hk
    rw [List.drop_eq_getElem_cons hlen]
    have hval : ((List.range n).map (fun i => β ^ i * c))[k] = β ^ k * c := by simp
    rw [hval, msm_cons, ih (k + 1) (by simp at h ⊢; omega)]
    simp [evalPoly]
    ring

theorem skip_go_none_of_all_zero (p : List F) (hz : ∀ a ∈ p, a = 0) :
    ∀ fuel i, skip_go p fuel i = none := by
  intro fuel
  induction fuel with
  | zero => intro _; rfl
  | succ m ih =>
    intro i
    simp only [skip_go]
    cases hgi : p[i]? with
    | none => rfl
    | some c =>
      have hc : c = 0 := hz c (List.getElem?_mem hgi)
      simp [hc, ih]

theorem skip_go_some_facts (p : List F) :
    ∀ fuel i n, skip_go p fuel i = some n →
      i ≤ n ∧ n < p.length ∧ ∀ j, i ≤ j → j < n → p.getD j 0 = 0 := by
  intro fuel
  induction fuel with
  | zero => intro i n h; simp [skip_go] at h
  | succ m ih =>
    intro i n h
    simp only [skip_go] at h
    split at h
    · exact absurd h (by simp)
    · rename_i c hgi
      split at h
      · rename_i hc
        obtain ⟨h1, h2, h3⟩ := ih (i + 1) n h
        refine ⟨by omega, h2, ?_⟩
        intro j hij hjn
        by_cases hji : j = i
        · subst hji
          rw [List.getD_eq_getElem?_getD, hgi]
          simpa using hc
        · exact h3 j (by omega) hjn
      · injection h with h'
        subst h'
        have hi : i < p.length := (List.getElem?_eq_some.mp hgi).1
        exact ⟨le_refl _, hi, fun j h1 h2 => absurd h1 (by omega)⟩

theorem evalPoly_eq_pow_mul_drop :
    ∀ (n : Nat) (p : List F) (x : F), n ≤ p.length → (∀ j, j < n → p.getD j 0 = 0) →
      evalPoly p x = x ^ n * evalPoly (p.drop n) x := by
  intro n
  induction n with
  | zero => intro p x _ _; simp
  | succ m ih =>
    intro p x hn hz
    cases p with
    | nil => simp at hn
    | cons a t =>
      have ha : a = 0 := by simpa using hz 0 (by omega)
      have ht := ih t x (by simp at hn; omega) (fun j hj => by
        simpa using hz (j + 1) (by omega))
      simp only [evalPoly, ha, ht, List.drop_succ_cons]
      ring

theorem skip_leading_zeros_eval (p : List F) (nlz : Nat) (x : F)
    (h : skip_leading_zeros p = some nlz) :
    evalPoly p x = x ^ nlz * evalPoly (p.drop nlz) x ∧ nlz ≤ p.length := by
  obtain ⟨_, h2, h3⟩ := skip_go_some_facts p (p.length + 1) 0 nlz h
  exact ⟨evalPoly_eq_pow_mul_drop nlz p x (by omega) (fun j hj => h3 j (by omega) hj), by omega⟩

/-! ### Setup power-sequence lemmas -/

theorem powers_of_beta_loop_eq (β : F) (n : Nat) :
    ∀ k, powers_of_beta_loop β (β ^ (k + 1)) n
      = (List.range n).map (fun i => β ^ (i + k + 1)) := by
  induction n with
  | zero => intro k; simp [powers_of_beta_loop]
  | succ m ih =>
    intro k
    simp only [powers_of_beta_loop]
    rw [show β ^ (k + 1) * β = β ^ (k + 1 + 1) from by ring, ih (k + 1),
      List.range_succ_eq_map]
    simp only [List.map_cons, List.map_map, List.cons.injEq]
    refine ⟨by simp, ?_⟩
    apply List.map_congr_left
    intro i _
    simp only [Function.comp_apply]
    congr 1
    omega

theorem powers_of_beta_eq (β : F) (n : Nat) :
    (1 : F) :: powers_of_beta_loop β β n = (List.range (n + 1)).map (fun i => β ^ i) := by
  have h := powers_of_beta_loop_eq β n 0
  rw [pow_one] at h
  rw [h, List.range_succ_eq_map]
  simp only [List.map_cons, List.map_map, pow_zero, List.cons.injEq]
  refine ⟨trivial, ?_⟩
  apply List.map_congr_left
  intro i _
  simp only [Function.comp_apply]

/-! ### Characterizations of the checks -/

theorem check_degree_ok_iff (d n : Nat) :
    check_degree_is_too_large d n = .ok () ↔ d + 1 ≤ n := by
  unfold check_degree_is_too_large
  by_cases hn : n < d + 1
  · simp only [if_pos hn]
    constructor
    · intro hc; exact absurd hc (by simp)
    · intro hc; omega
  · simp only [if_neg hn]
    constructor
    · intro _; omega
    · intro _; trivial

theorem check_hiding_ok_iff (d n : Nat) :
    check_hiding_bound d n = .ok () ↔ d ≠ 0 ∧ d < n := by
  unfold check_hiding_bound
  by_cases h0 : d = 0
  · simp [h0]
  · by_cases hn : n ≤ d
    · simp only [if_neg h0, if_pos hn]
      constructor
      · intro hc; exact absurd hc (by simp)
      · intro hc; omega
    · simp only [if_neg h0, if_neg hn]
      constructor
      · intro _; exact ⟨h0, by omega⟩
      · intro _; trivial

theorem skip_convert_some (p : List F) (nlz : Nat) (plain : List F)
    (h : skip_leading_zeros_and_convert_to_bigints p = some (nlz, plain)) :
    skip_leading_zeros p = some nlz ∧ plain = p.drop nlz := by
  simp only [skip_leading_zeros_and_convert_to_bigints, Option.map_eq_some'] at h
  obtain ⟨a, ha, hfa⟩ := h
  simp only [Prod.mk.injEq] at hfa
  obtain ⟨h1, h2⟩ := hfa
  subst h1
  exact ⟨ha, h2.symm⟩

/-! ### Setup and trim characterization -/

theorem setup_ok_fields (D : Nat) (config : KZG10DegreeBoundsConfig) (g2 : Bool)
    (β g γg h : F) (pp : UniversalParams F)
    (hok : setup D config g2 β g γg h = some (.ok pp)) :
    pp.powers_of_g = (List.range (D + 1)).map (fun i => β ^ i * g)
    ∧ pp.powers_of_gamma_g = (List.range (D + 2)).map (fun i => β ^ i * γg)
    ∧ pp.h = h ∧ pp.beta_h = β * h ∧ pp.prepared_h = h ∧ pp.prepared_beta_h = β * h
    ∧ 1 ≤ D := by
  have hG : ∀ c : F, ((1 :: powers_of_beta_loop β β D).map (fun s => s * c))
      = (List.range (D + 1)).map (fun i => β ^ i * c) := by
    intro c
    rw [powers_of_beta_eq, List.map_map]
    apply List.map_congr_left
    intro i _
    simp only [Function.comp_apply]
  simp only [setup] at hok
  split at hok
  · simp at hok
  · rename_i hD
    split at hok
    · simp at hok
    · rename_i ipg hipg
      split at hok
      · simp at hok
      · rename_i inh hinh
        injection hok with hok1
        injection hok1 with hok2
        subst hok2
        refine ⟨hG g, ?_, rfl, rfl, rfl, rfl, by omega⟩
        show ((1 :: powers_of_beta_loop β β D).map (fun s => s * γg))
            ++ [((1 :: powers_of_beta_loop β β D).map (fun s => s * γg)).getD
                 (((1 :: powers_of_beta_loop β β D).map (fun s => s * γg)).length - 1) 0 * β]
          = (List.range (D + 2)).map (fun i => β ^ i * γg)
        rw [hG γg]
        have hgetD : ((List.range (D + 1)).map (fun i => β ^ i * γg)).getD
            (((List.range (D + 1)).map (fun i => β ^ i * γg)).length - 1) 0
            = β ^ D * γg := by
          simp [List.getD_eq_getElem?_getD]
        rw [hgetD]
        conv_rhs => rw [show D + 2 = (D + 1) + 1 from rfl, List.range_succ, List.map_append]
        congr 1
        simp only [List.map_cons, List.map_nil, List.cons.injEq, and_true]
        rw [pow_succ]
        ring

theorem trim_ok (pp : UniversalParams F) (d : Nat) (powers : Powers F) (vk : VerifierKey F)
    (h : trim pp d = some (powers, vk)) :
    (if d = 1 then d + 1 else d) + 1 ≤ pp.powers_of_g.length
    ∧ (if d = 1 then d + 1 else d) + 1 ≤ pp.powers_of_gamma_g.length
    ∧ powers = ⟨pp.powers_of_g.take ((if d = 1 then d + 1 else d) + 1),
        pp.powers_of_gamma_g.take ((if d = 1 then d + 1 else d) + 1)⟩
    ∧ vk = ⟨pp.powers_of_g.getD 0 0, pp.powers_of_gamma_g.getD 0 0,
        pp.h, pp.beta_h, pp.prepared_h, pp.prepared_beta_h⟩ := by
  simp only [trim] at h
  split at h
  · rename_i hd1
    rw [if_pos hd1]
    split at h
    · rename_i hcond
      injection h with h1
      simp only [Prod.mk.injEq] at h1
      obtain ⟨hp, hv⟩ := h1
      exact ⟨hcond.1, hcond.2, hp.symm, hv.symm⟩
    · simp at h
  · rename_i hd1
    rw [if_neg hd1]
    split at h
    · rename_i hcond
      injection h with h1
      simp only [Prod.mk.injEq] at h1
      obtain ⟨hp, hv⟩ := h1
      exact ⟨hcond.1, hcond.2, hp.symm, hv.symm⟩
    · simp at h

/-! ### Commit and open characterization -/

theorem commit_ok_cases (powers : Powers F) (p : List F) (hb : Option Nat)
    (rng : Option (Nat → List F)) (C : F) (rand : Randomness F)
    (h : commit powers p hb false rng = some (.ok (C, rand))) :
    ∃ nlz, skip_leading_zeros p = some nlz
      ∧ degree p + 1 ≤ powers.size
      ∧ C = msm (powers.powers_of_g.drop nlz) (p.drop nlz)
          + msm powers.powers_of_gamma_g rand.blinding_polynomial
      ∧ (rand = Randomness.empty
         ∨ ∃ hd f, hb = some hd ∧ rng = some f ∧ rand = ⟨f hd⟩
             ∧ degree (f hd) ≠ 0 ∧ degree (f hd) < powers.powers_of_gamma_g.length) := by
  rcases hb with _ | hd
  · simp only [commit, Bool.false_eq_true, if_false] at h
    split at h
    · simp at h
    · rename_i u hchk
      have hdeg : degree p + 1 ≤ powers.size := by
        cases u
        exact (check_degree_ok_iff _ _).mp hchk
      split at h
      · simp at h
      · rename_i nlz plain hskip
        obtain ⟨hs1, hs2⟩ := skip_convert_some p nlz plain hskip
        subst hs2
        injection h with h1
        injection h1 with h2
        simp only [Prod.mk.injEq] at h2
        obtain ⟨hC, hrand⟩ := h2
        refine ⟨nlz, hs1, hdeg, ?_, Or.inl hrand.symm⟩
        rw [← hC, ← hrand]
  · rcases rng with _ | f
    · simp only [commit, Bool.false_eq_true, if_false] at h
      split at h
      · simp at h
      · split at h
        · simp at h
        · simp at h
    · simp only [commit, Bool.false_eq_true, if_false] at h
      split at h
      · simp at h
      · rename_i u hchk
        have hdeg : degree p + 1 ≤ powers.size := by
          cases u
          exact (check_degree_ok_iff _ _).mp hchk
        split at h
        · simp at h
        · rename_i nlz plain hskip
          obtain ⟨hs1, hs2⟩ := skip_convert_some p nlz plain hskip
          subst hs2
          split at h
          · simp at h
          · rename_i u2 hhide
            have hhide2 : degree (f hd) ≠ 0 ∧ degree (f hd) < powers.powers_of_gamma_g.length := by
              cases u2
              exact (check_hiding_ok_iff _ _).mp hhide
            injection h with h1
            injection h1 with h2
            simp only [Prod.mk.injEq] at h2
            obtain ⟨hC, hrand⟩ := h2
            refine ⟨nlz, hs1, hdeg, ?_, Or.inr ⟨hd, f, rfl, rfl, hrand.symm, hhide2⟩⟩
            rw [← hC, ← hrand]

theorem open_ok_cases (powers : Powers F) (p : List F) (z : F) (rand : Randomness F)
    (proof : Proof F) (h : openProof powers p z rand = some (.ok proof)) :
    ∃ nlz, degree p + 1 ≤ powers.size
      ∧ skip_leading_zeros (divPoly p z) = some nlz
      ∧ degree (divPoly p z) + 1 ≤ powers.size
      ∧ ((rand.is_hiding = false
          ∧ proof = ⟨msm (powers.powers_of_g.drop nlz) ((divPoly p z).drop nlz), none⟩)
        ∨ (rand.is_hiding = true
          ∧ proof = ⟨msm (powers.powers_of_g.drop nlz) ((divPoly p z).drop nlz)
              + msm powers.powers_of_gamma_g (divPoly rand.blinding_polynomial z),
              some (evalPoly rand.blinding_polynomial z)⟩)) := by
  simp only [openProof] at h
  split at h
  · simp at h
  · rename_i u hchk
    have hdeg : degree p + 1 ≤ powers.size := by
      cases u
      exact (check_degree_ok_iff _ _).mp hchk
    simp only [compute_witness_polynomial] at h
    simp only [open_with_witness_polynomial] at h
    split at h
    · simp at h
    · rename_i u2 hchk2
      have hdeg2 : degree (divPoly p z) + 1 ≤ powers.size := by
        cases u2
        exact (check_degree_ok_iff _ _).mp hchk2
      split at h
      · simp at h
      · rename_i nlz wcoeffs hskip
        obtain ⟨hs1, hs2⟩ := skip_convert_some _ nlz wcoeffs hskip
        subst hs2
        by_cases hh : rand.is_hiding
        · rw [if_pos hh] at h
          injection h with h1
          injection h1 with h2
          exact ⟨nlz, hdeg, hs1, hdeg2, Or.inr ⟨hh, h2.symm⟩⟩
        · rw [if_neg hh] at h
          injection h with h1
          injection h1 with h2
          exact ⟨nlz, hdeg, hs1, hdeg2, Or.inl ⟨by simpa using hh, h2.symm⟩⟩

theorem take_map_range (β c : F) (m n : Nat) (hmn : m ≤ n) :
    ((List.range n).map (fun i => β ^ i * c)).take m
      = (List.range m).map (fun i => β ^ i * c) := by
  rw [← List.map_take, List.take_range, Nat.min_eq_left hmn]

theorem getD_map_range_zero (β c : F) (n : Nat) (hn : 0 < n) :
    ((List.range n).map (fun i => β ^ i * c)).getD 0 0 = c := by
  cases n with
  | zero => omega
  | succ m => simp [List.range_succ_eq_map]

/-- C1: Completeness: for every max_degree D ≥ 1, every polynomial p whose
degree is at most the trimmed key's supported degree, every hiding choice
(absent, or a hiding degree in [1,D)), and every point z, if setup/trim
produced (powers, vk) and commit(powers, p, hiding, flag=false, rng) returns
(C, rand) and open(powers, p, z, rand) returns proof, then
check(vk, C, z, p(z), proof) returns Ok(true). -/
theorem C1_completeness (β g γg h : F) (D d : Nat) (p : List F) (z : F)
    (hb : Option Nat) (rng : Option (Nat → List F))
    (pp : UniversalParams F) (powers : Powers F) (vk : VerifierKey F)
    (C : F) (rand : Randomness F) (proof : Proof F)
    (hD : 1 ≤ D)
    (hhb : hb = none ∨ ∃ hd, hb = some hd ∧ 1 ≤ hd ∧ hd < D)
    (hsetup : setup D .NONE false β g γg h = some (.ok pp))
    (htrim : trim pp d = some (powers, vk))
    (hdeg : degree p + 1 ≤ powers.size)
    (hcommit : commit powers p hb false rng = some (.ok (C, rand)))
    (hopen : openProof powers p z rand = some (.ok proof)) :
    check vk C z (evalPoly p z) proof = .ok true := by
  obtain ⟨hpg, hγ, hh, hbh, hph, hpbh, _⟩ :=
    setup_ok_fields D .NONE false β g γg h pp hsetup
  obtain ⟨hlen1, hlen2, hpowers, hvk⟩ := trim_ok pp d powers vk htrim
  set d' := if d = 1 then d + 1 else d with hd'
  have hlenG : pp.powers_of_g.length = D + 1 := by rw [hpg]; simp
  have hlenΓ : pp.powers_of_gamma_g.length = D + 2 := by rw [hγ]; simp
  have hglist : powers.powers_of_g = (List.range (d' + 1)).map (fun i => β ^ i * g) := by
    rw [hpowers]
    show pp.powers_of_g.take (d' + 1) = _
    rw [hpg, take_map_range β g (d' + 1) (D + 1) (by omega)]
  have hγlist : powers.powers_of_gamma_g
      = (List.range (d' + 1)).map (fun i => β ^ i * γg) := by
    rw [hpowers]
    show pp.powers_of_gamma_g.take (d' + 1) = _
    rw [hγ, take_map_range β γg (d' + 1) (D + 2) (by omega)]
  have hsize : powers.size = d' + 1 := by
    rw [Powers.size, hglist]
    simp
  have hvkg : vk.g = g := by
    rw [hvk]
    show pp.powers_of_g.getD 0 0 = g
    rw [hpg]
    exact getD_map_range_zero β g (D + 1) (by omega)
  have hvkγ : vk.gamma_g = γg := by
    rw [hvk]
    show pp.powers_of_gamma_g.getD 0 0 = γg
    rw [hγ]
    exact getD_map_range_zero β γg (D + 2) (by omega)
  have hvkh : vk.h = h := by rw [hvk]; exact hh
  have hvkbh : vk.beta_h = β * h := by rw [hvk]; exact hbh
  obtain ⟨nlz, hskip, hdegp, hC, hcase⟩ :=
    commit_ok_cases powers p hb rng C rand hcommit
  obtain ⟨nlz2, _, hskip2, hdegw, hpcase⟩ :=
    open_ok_cases powers p z rand proof hopen
  -- length bound on the blinding polynomial
  have hblen : rand.blinding_polynomial.length ≤ d' + 1 := by
    rcases hcase with hrand | ⟨hd, f, _, _, hrand, hne, hlt⟩
    · rw [hrand]; simp [Randomness.empty]
    · rw [hrand]
      show (f hd).length ≤ d' + 1
      rw [hγlist] at hlt
      simp only [degree] at hlt
      simp at hlt
      omega
  -- the plain commitment evaluates to g · p(β)
  obtain ⟨hsf1, hsf2, hsf3⟩ := skip_go_some_facts p (p.length + 1) 0 nlz hskip
  have hgP : msm (powers.powers_of_g.drop nlz) (p.drop nlz) = g * evalPoly p β := by
    rw [hglist]
    rw [msm_map_range_drop β g (p.drop nlz) nlz (d' + 1)
      (by simp only [List.length_drop]; rw [hsize] at hdegp; simp only [degree] at hdegp; omega)]
    obtain ⟨hev, _⟩ := skip_leading_zeros_eval p nlz β hskip
    rw [← hev]
  -- the random commitment evaluates to γg · blind(β)
  have hγB : msm powers.powers_of_gamma_g rand.blinding_polynomial
      = γg * evalPoly rand.blinding_polynomial β := by
    rw [hγlist]
    have := msm_map_range_drop β γg rand.blinding_polynomial 0 (d' + 1) (by omega)
    simpa using this
  -- the witness commitment evaluates to g · w(β)
  obtain ⟨hsf1w, hsf2w, hsf3w⟩ :=
    skip_go_some_facts (divPoly p z) ((divPoly p z).length + 1) 0 nlz2 hskip2
  have hgW : msm (powers.powers_of_g.drop nlz2) ((divPoly p z).drop nlz2)
      = g * evalPoly (divPoly p z) β := by
    rw [hglist]
    rw [msm_map_range_drop β g ((divPoly p z).drop nlz2) nlz2 (d' + 1)
      (by simp only [List.length_drop]; rw [hsize] at hdegw; simp only [degree] at hdegw; omega)]
    obtain ⟨hev, _⟩ := skip_leading_zeros_eval (divPoly p z) nlz2 β hskip2
    rw [← hev]
  -- the hiding witness commitment evaluates to γg · wblind(β)
  have hγW : msm powers.powers_of_gamma_g (divPoly rand.blinding_polynomial z)
      = γg * evalPoly (divPoly rand.blinding_polynomial z) β := by
    rw [hγlist]
    have hlb := divPoly_length_le rand.blinding_polynomial z
    have := msm_map_range_drop β γg (divPoly rand.blinding_polynomial z) 0 (d' + 1)
      (by omega)
    simpa using this
  rcases hpcase with ⟨hhide, hproof⟩ | ⟨hhide, hproof⟩
  · -- the non-hiding case: the blinding polynomial is the zero polynomial
    have hz0 : polyIsZero rand.blinding_polynomial = true := by
      simpa [Randomness.is_hiding] using hhide
    have hEb : evalPoly rand.blinding_polynomial β = 0 := polyIsZero_eval _ hz0 β
    subst hproof
    simp only [check, pairing, hvkg, hvkγ, hvkh, hvkbh, hgW]
    rw [hC, hgP, hγB, hEb]
    simp only [Except.ok.injEq, decide_eq_true_eq]
    linear_combination (h * g) * eval_divPoly p z β
  · -- the hiding case
    subst hproof
    simp only [check, pairing, hvkg, hvkγ, hvkh, hvkbh, hgW, hγW]
    rw [hC, hgP, hγB]
    simp only [Except.ok.injEq, decide_eq_true_eq]
    linear_combination (h * g) * eval_divPoly p z β
      + (h * γg) * eval_divPoly rand.blinding_polynomial z β

/-- C2: for every VerifierKey, commitment, point, claimed value and proof,
check returns Ok(b) and never an error, where b is true iff
pairing(C − v·g − (random_v·gamma_g when present), h) equals
pairing(w, beta_h − z·h); a cryptographically false proof yields Ok(false),
not an error. -/
theorem C2_check_total (vk : VerifierKey F) (c z v : F) (pr : Proof F) :
    ∃ b, check vk c z v pr = .ok b
      ∧ (b = true ↔ pairing (c - vk.g * v -
            (match pr.random_v with
             | some rv => vk.gamma_g * rv
             | none => 0)) vk.h
          = pairing pr.w (vk.beta_h - vk.h * z)) := by
  refine ⟨_, rfl, ?_⟩
  cases hrv : pr.random_v with
  | none => simp only [check, hrv, decide_eq_true_eq, sub_zero]
  | some rv => simp only [check, hrv, decide_eq_true_eq]

/-! ### Reconstruction identity for the witness quotient -/

theorem polyAdd_nil_right (p : List F) : polyAdd p [] = p := by
  cases p <;> rfl

theorem mlAux_divmod (z : F) (t : List F) :
    mlAux z (divmodLinear t z).2 (divmodLinear t z).1 = t ++ [0] := by
  induction t with
  | nil => simp [divmodLinear, mlAux]
  | cons b s ih =>
    simp only [divmodLinear, mlAux]
    rw [show (b + z * (divmodLinear s z).2) - z * (divmodLinear s z).2 = b from by ring]
    rw [ih]
    simp

theorem divmod_reconstruction (p : List F) (z : F) :
    polyAdd (mulLinear z (divmodLinear p z).1) [(divmodLinear p z).2] = p ++ [0] := by
  cases p with
  | nil => simp [divmodLinear, mulLinear, polyAdd]
  | cons a t =>
    simp only [divmodLinear, mulLinear, polyAdd, polyAdd_nil_right]
    rw [show -z * (divmodLinear t z).2 + (a + z * (divmodLinear t z).2) = a from by ring]
    rw [mlAux_divmod]
    simp

theorem mlAux_append_zero (z prev : F) (t : List F) :
    mlAux z prev (t ++ [0]) = mlAux z prev t ++ [0] := by
  induction t generalizing prev with
  | nil => simp [mlAux]
  | cons b s ih =>
    simp only [List.cons_append, mlAux, List.append_eq]
    rw [ih]

theorem truncate_polyAdd_mulLinear_append_zero (z r : F) (y : List F) :
    truncate (polyAdd (mulLinear z (y ++ [0])) [r])
      = truncate (polyAdd (mulLinear z y) [r]) := by
  cases y with
  | nil =>
    simp only [List.nil_append, mulLinear, mlAux, polyAdd, polyAdd_nil_right]
    rw [show -z * (0 : F) + r = r from by ring]
    exact truncate_append_zero [r]
  | cons a t =>
    simp only [List.cons_append, mulLinear, List.append_eq, mlAux_append_zero, polyAdd,
      polyAdd_nil_right]
    exact truncate_append_zero ((-z * a + r) :: mlAux z a t)

theorem truncate_polyAdd_mulLinear_trunc (z r : F) (q : List F) :
    truncate (polyAdd (mulLinear z (truncate q)) [r])
      = truncate (polyAdd (mulLinear z q) [r]) := by
  obtain ⟨k, hk⟩ := truncate_decomposition q
  conv_rhs => rw [hk]
  generalize truncate q = y at *
  clear hk
  induction k with
  | zero => simp
  | succ m ih =>
    rw [List.replicate_succ' m (0 : F), ← List.append_assoc,
      truncate_polyAdd_mulLinear_append_zero, ih]

/-- C4: compute_witness_polynomial returns the quotient of p divided by the
linear divisor (x − z); this quotient equals the quotient of (p − p(z))
divided by (x − z); p = (x − z)·w + p(z) as dense polynomials, because p(z)
is exactly the remainder of that division; and when the randomness is hiding
the analogous blinding-polynomial quotient is the second component. -/
theorem C4_witness_quotient (p : List F) (z : F) (rand : Randomness F)
    (hwf : truncate p = p) :
    ∃ w hw, compute_witness_polynomial p z rand = .ok (w, hw)
      ∧ w = divPoly p z
      ∧ divPoly (polySub p [evalPoly p z]) z = divPoly p z
      ∧ truncate (polyAdd (mulLinear z w) [evalPoly p z]) = p
      ∧ (divmodLinear p z).2 = evalPoly p z
      ∧ hw = (if rand.is_hiding then some (divPoly rand.blinding_polynomial z)
              else none) := by
  refine ⟨divPoly p z, _, rfl, rfl, ?_, ?_, divmod_snd_eq_eval p z, rfl⟩
  · cases p with
    | nil => simp [polySub, polyAdd, divPoly, divmodLinear, truncate]
    | cons a t =>
      simp only [polySub, List.map_cons, List.map_nil, polyAdd, polyAdd_nil_right,
        divPoly, divmodLinear]
  · rw [divPoly, truncate_polyAdd_mulLinear_trunc, ← divmod_snd_eq_eval p z,
      divmod_reconstruction, truncate_append_zero, hwf]

theorem check_degree_error_iff (d n : Nat) :
    check_degree_is_too_large d n = .error (.TooManyCoefficients (d + 1) n)
      ↔ n < d + 1 := by
  unfold check_degree_is_too_large
  by_cases hn : n < d + 1
  · simp [hn]
  · simp [hn]

theorem check_hiding_error_cases (d n : Nat) (e : KzgError)
    (h : check_hiding_bound d n = .error e) :
    e = .HidingBoundIsZero ∨ e = .HidingBoundToolarge d n := by
  unfold check_hiding_bound at h
  split at h
  · injection h with h2
    exact Or.inl h2.symm
  · split at h
    · injection h with h2
      exact Or.inr h2.symm
    · exact absurd h (by simp)

/-- C5: commit and open return Err(TooManyCoefficients) exactly when the
polynomial's number of coefficients (degree + 1) exceeds powers.size(), and
open additionally applies the same check to the witness polynomial's degree;
a too-large polynomial is never silently truncated into a commitment. -/
theorem C5_degree_rejection (powers : Powers F) (p w : List F) (hb : Option Nat)
    (term : Bool) (rng : Option (Nat → List F)) (z : F) (rand : Randomness F)
    (hwopt : Option (List F)) :
    (commit powers p hb term rng
        = some (.error (.TooManyCoefficients (degree p + 1) powers.size))
      ↔ powers.size < degree p + 1)
    ∧ (openProof powers p z rand
        = some (.error (.TooManyCoefficients (degree p + 1) powers.size))
      ↔ powers.size < degree p + 1)
    ∧ (open_with_witness_polynomial powers z rand w hwopt
        = some (.error (.TooManyCoefficients (degree w + 1) powers.size))
      ↔ powers.size < degree w + 1) := by
  have herr : ∀ (q : List F), powers.size < degree q + 1 →
      check_degree_is_too_large (degree q) powers.size
        = .error (.TooManyCoefficients (degree q + 1) powers.size) := by
    intro q hq
    unfold check_degree_is_too_large
    rw [if_pos hq]
  have hok : ∀ (q : List F), ¬ powers.size < degree q + 1 →
      check_degree_is_too_large (degree q) powers.size = .ok () := by
    intro q hq
    unfold check_degree_is_too_large
    rw [if_neg hq]
  refine ⟨?_, ?_, ?_⟩
  · by_cases hc : powers.size < degree p + 1
    · simp [commit, herr p hc, hc]
    · apply iff_of_false ?_ hc
      intro heq
      simp only [commit, hok p hc] at heq
      repeat' split at heq
      all_goals try (simp at heq)
      rename_i e hhid
      subst heq
      rcases check_hiding_error_cases _ _ _ hhid with h1 | h1 <;> simp at h1
  · by_cases hc : powers.size < degree p + 1
    · simp [openProof, herr p hc, hc]
    · have hwit : ¬ powers.size < degree (divPoly p z) + 1 := by
        have hl := divPoly_length_le p z
        simp only [degree] at hc ⊢
        omega
      apply iff_of_false ?_ hc
      intro heq
      simp only [openProof, hok p hc, compute_witness_polynomial,
        open_with_witness_polynomial, hok (divPoly p z) hwit] at heq
      repeat' split at heq
      all_goals simp at heq
  · by_cases hc : powers.size < degree w + 1
    · simp [open_with_witness_polynomial, herr w hc, hc]
    · apply iff_of_false ?_ hc
      intro heq
      simp only [open_with_witness_polynomial, hok w hc] at heq
      repeat' split at heq
      all_goals simp at heq

theorem skip_go_some_of_exists (p : List F) :
    ∀ fuel i, (∃ j, i ≤ j ∧ j < p.length ∧ p.getD j 0 ≠ 0) →
      p.length + 1 - i ≤ fuel → ∃ n, skip_go p fuel i = some n := by
  intro fuel
  induction fuel with
  | zero =>
    intro i ⟨j, h1, h2, _⟩ hfuel
    omega
  | succ m ih =>
    intro i ⟨j, h1, h2, h3⟩ hfuel
    have hi : i < p.length := by omega
    cases hgi : p[i]? with
    | none =>
      rw [List.getElem?_eq_none_iff] at hgi
      omega
    | some c =>
      simp only [skip_go, hgi]
      by_cases hc : c = 0
      · rw [if_pos hc]
        apply ih (i + 1)
        · refine ⟨j, ?_, h2, h3⟩
          rcases Nat.lt_or_ge i j with hij | hij
          · omega
          · have hij2 : i = j := by omega
            subst hij2
            rw [List.getD_eq_getElem?_getD, hgi] at h3
            simp [hc] at h3
        · omega
      · rw [if_neg hc]
        exact ⟨i, rfl⟩

theorem skip_some_of_not_zero (p : List F) (hnz : ¬ polyIsZero p = true) :
    ∃ n, skip_leading_zeros p = some n := by
  simp only [polyIsZero, List.all_eq_true, decide_eq_true_eq, not_forall] at hnz
  obtain ⟨a, ha, hane⟩ := hnz
  obtain ⟨j, hj, hgetj⟩ := List.getElem_of_mem ha
  apply skip_go_some_of_exists p (p.length + 1) 0
  · refine ⟨j, by omega, hj, ?_⟩
    rw [List.getD_eq_getElem?_getD, List.getElem?_eq_getElem hj]
    simpa [hgetj] using hane
  · omega

/-- C6: when commit is called with a hiding degree present, a randomness
source is required exactly then (its absence gives Err(MissingRng)), and the
hiding degree must be ≥ 1 and < the number of available powers_of_gamma_g
(else HidingBoundIsZero / HidingBoundTooLarge); when hiding is absent, no rng
is required and the returned Randomness is the empty (zero) blinding
polynomial. -/
theorem C6_hiding_requirements (powers : Powers F) (p : List F) (hd : Nat)
    (f : Nat → List F)
    (hnz : ¬ polyIsZero p = true)
    (hdeg : degree p + 1 ≤ powers.size)
    (hflen : (f hd).length = hd + 1) :
    commit powers p (some hd) false none = some (.error .MissingRng)
    ∧ (commit powers p (some hd) false (some f) = some (.error .HidingBoundIsZero)
      ↔ hd = 0)
    ∧ (commit powers p (some hd) false (some f)
        = some (.error (.HidingBoundToolarge hd powers.powers_of_gamma_g.length))
      ↔ hd ≠ 0 ∧ powers.powers_of_gamma_g.length ≤ hd)
    ∧ ∃ c, commit powers p none false none = some (.ok (c, Randomness.empty)) := by
  obtain ⟨nlz, hskip⟩ := skip_some_of_not_zero p hnz
  have hskc : skip_leading_zeros_and_convert_to_bigints p = some (nlz, p.drop nlz) := by
    simp [skip_leading_zeros_and_convert_to_bigints, hskip]
  have hck : check_degree_is_too_large (degree p) powers.size = .ok () :=
    (check_degree_ok_iff _ _).mpr hdeg
  have hdg : degree (f hd) = hd := by simp [degree, hflen]
  refine ⟨?_, ?_, ?_, ?_⟩
  · simp [commit, hck, hskc]
  · by_cases h0 : hd = 0
    · subst h0
      have hchb : check_hiding_bound (degree (f 0)) powers.powers_of_gamma_g.length
          = .error .HidingBoundIsZero := by
        rw [hdg]
        unfold check_hiding_bound
        rw [if_pos rfl]
      simp [commit, hck, hskc, hchb]
    · by_cases hlen : powers.powers_of_gamma_g.length ≤ hd
      · have hchb : check_hiding_bound (degree (f hd)) powers.powers_of_gamma_g.length
            = .error (.HidingBoundToolarge hd powers.powers_of_gamma_g.length) := by
          rw [hdg]
          unfold check_hiding_bound
          rw [if_neg h0, if_pos hlen]
        simp [commit, hck, hskc, hchb, h0]
      · have hchb : check_hiding_bound (degree (f hd)) powers.powers_of_gamma_g.length
            = .ok () := by
          rw [hdg]
          unfold check_hiding_bound
          rw [if_neg h0, if_neg hlen]
        simp [commit, hck, hskc, hchb, h0]
  · by_cases h0 : hd = 0
    · subst h0
      have hchb : check_hiding_bound (degree (f 0)) powers.powers_of_gamma_g.length
          = .error .HidingBoundIsZero := by
        rw [hdg]
        unfold check_hiding_bound
        rw [if_pos rfl]
      simp [commit, hck, hskc, hchb]
    · by_cases hlen : powers.powers_of_gamma_g.length ≤ hd
      · have hchb : check_hiding_bound (degree (f hd)) powers.powers_of_gamma_g.length
            = .error (.HidingBoundToolarge hd powers.powers_of_gamma_g.length) := by
          rw [hdg]
          unfold check_hiding_bound
          rw [if_neg h0, if_pos hlen]
        simp [commit, hck, hskc, hchb, h0, hlen]
      · have hchb : check_hiding_bound (degree (f hd)) powers.powers_of_gamma_g.length
            = .ok () := by
          rw [hdg]
          unfold check_hiding_bound
          rw [if_neg h0, if_neg hlen]
        simp [commit, hck, hskc, hchb, h0, hlen]
  · exact ⟨msm (powers.powers_of_g.drop nlz) (p.drop nlz) + msm powers.powers_of_gamma_g [],
      by simp [commit, hck, hskc, Randomness.empty]⟩

/-- C7: setup returns Err(DegreeIsZero) iff max_degree < 1 (and has no other
recoverable error); on success, powers_of_g has exactly max_degree + 1
elements equal to β^i·G for i = 0..max_degree, powers_of_gamma_g has exactly
max_degree + 2 elements equal to γ·β^i·G for i = 0..max_degree+1 (the extra
last power obtained by multiplying the previous last by β), and
beta_h = β·H. -/
theorem C7_setup (D : Nat) (config : KZG10DegreeBoundsConfig) (g2 : Bool) (β g γg h : F) :
    (setup D config g2 β g γg h = some (.error .DegreeIsZero) ↔ D < 1)
    ∧ (∀ e, setup D config g2 β g γg h = some (.error e) → e = .DegreeIsZero)
    ∧ ∀ pp, setup D config g2 β g γg h = some (.ok pp) →
        pp.powers_of_g = (List.range (D + 1)).map (fun i => β ^ i * g)
        ∧ pp.powers_of_g.length = D + 1
        ∧ pp.powers_of_gamma_g = (List.range (D + 2)).map (fun i => β ^ i * γg)
        ∧ pp.powers_of_gamma_g.length = D + 2
        ∧ pp.beta_h = β * h := by
  have hnoerr : ¬ D < 1 → ∀ e, ¬ setup D config g2 β g γg h = some (.error e) := by
    intro hD e heq
    simp only [setup, if_neg hD] at heq
    split at heq
    · simp at heq
    · split at heq
      · simp at heq
      · simp at heq
  refine ⟨?_, ?_, ?_⟩
  · by_cases hD : D < 1
    · simp [setup, hD]
    · exact iff_of_false (hnoerr hD _) hD
  · intro e heq
    by_cases hD : D < 1
    · simp only [setup, if_pos hD] at heq
      injection heq with h1
      injection h1 with h2
      exact h2.symm
    · exact absurd heq (hnoerr hD e)
  · intro pp hok
    obtain ⟨hpg, hγ, _, hbh, _, _, _⟩ := setup_ok_fields D config g2 β g γg h pp hok
    exact ⟨hpg, by rw [hpg]; simp, hγ, by rw [hγ]; simp, hbh⟩

theorem divmod_fst_all_zero (p : List F) (z : F) (hz : ∀ a ∈ p, a = 0) :
    ∀ a ∈ (divmodLinear p z).1, a = 0 := by
  induction p with
  | nil => simp [divmodLinear]
  | cons b t ih =>
    intro a ha
    simp only [divmodLinear, List.mem_cons] at ha
    rcases ha with ha | ha
    · rw [ha, divmod_snd_eq_eval]
      have hzt : polyIsZero t = true := by
        simp only [polyIsZero, List.all_eq_true, decide_eq_true_eq]
        exact fun x hx => hz x (List.mem_cons_of_mem b hx)
      exact polyIsZero_eval t hzt z
    · exact ih (fun x hx => hz x (List.mem_cons_of_mem b hx)) a ha

theorem truncate_all_zero (l : List F) (hz : ∀ a ∈ l, a = 0) : truncate l = [] := by
  unfold truncate
  have hdw : l.reverse.dropWhile (fun a => decide (a = 0)) = [] := by
    rw [List.dropWhile_eq_nil_iff]
    intro a ha
    simp [hz a (List.mem_reverse.mp ha)]
  rw [hdw]
  rfl

/-- C10: in skip_leading_zeros_and_convert_to_bigints the loop condition
evaluates the coefficient before testing the index bound; consequently, for
every polynomial whose coefficient vector is empty or consists entirely of
zero coefficients, commit and open perform an out-of-bounds index (a panic,
modelled as `none`) instead of returning a value-level error. -/
theorem C10_zero_polynomial_panics (powers : Powers F) (p : List F) (z : F)
    (rand : Randomness F) (hb : Option Nat) (rng : Option (Nat → List F))
    (hz : ∀ a ∈ p, a = 0)
    (hdeg : degree p < powers.size) :
    skip_leading_zeros p = none
    ∧ commit powers p hb false rng = none
    ∧ openProof powers p z rand = none := by
  have hskip : skip_leading_zeros p = none := skip_go_none_of_all_zero p hz _ _
  have hskc : skip_leading_zeros_and_convert_to_bigints p = none := by
    simp [skip_leading_zeros_and_convert_to_bigints, hskip]
  have hck : check_degree_is_too_large (degree p) powers.size = .ok () :=
    (check_degree_ok_iff _ _).mpr (by omega)
  have hwzero : divPoly p z = [] :=
    truncate_all_zero _ (divmod_fst_all_zero p z hz)
  have hck2 : check_degree_is_too_large (degree (divPoly p z)) powers.size = .ok () := by
    rw [hwzero]
    apply (check_degree_ok_iff _ _).mpr
    simp only [degree, List.length_nil] at hdeg ⊢
    omega
  have hskip2 : skip_leading_zeros (divPoly p z) = none := by
    rw [hwzero]
    exact skip_go_none_of_all_zero [] (by simp) _ _
  have hskc2 : skip_leading_zeros_and_convert_to_bigints (divPoly p z) = none := by
    simp [skip_leading_zeros_and_convert_to_bigints, hskip2]
  refine ⟨hskip, ?_, ?_⟩
  · simp [commit, hck, hskc]
  · simp [openProof, hck, compute_witness_polynomial, open_with_witness_polynomial,
      hck2, hskc2]

theorem indexedSum_congr {α : Type} (f g : Nat → α → F) (l : List α)
    (h : ∀ i a, f i a = g i a) : ∀ i, indexedSum f l i = indexedSum g l i := by
  induction l with
  | nil => intro i; rfl
  | cons a t ih => intro i; simp only [indexedSum, h, ih]

theorem bcLoop_eq (us : Nat → Nat) (E : List ((F × F × F) × Proof F)) :
    ∀ i tc tw gm γm,
      bcLoop us E i (rSeq us i) (tc, tw, gm, γm)
        = (tc + indexedSum (fun j e => (e.2.w * e.1.2.1 + e.1.1) * rSeq us j) E i,
           tw + indexedSum (fun j e => e.2.w * rSeq us j) E i,
           gm + indexedSum (fun j e => rSeq us j * e.1.2.2) E i,
           γm + indexedSum (fun j e => rSeq us j * e.2.random_v.getD 0) E i) := by
  induction E with
  | nil => intro i tc tw gm γm; simp [bcLoop, indexedSum]
  | cons e rest ih =>
    intro i tc tw gm γm
    obtain ⟨⟨c, z, v⟩, pr⟩ := e
    simp only [bcLoop, indexedSum]
    rw [show (promote128 (us i) : F) = rSeq us (i + 1) from rfl]
    rw [ih (i + 1)]
    simp only [Prod.mk.injEq]
    refine ⟨by ring, by ring, by ring, ?_⟩
    cases hrv : pr.random_v with
    | none => simp [hrv]
    | some rv => simp [hrv]; ring

/-- C3: batch_check, with batching scalars r_0 = 1 and, for i > 0, r_i a
128-bit draw promoted into the scalar field, accumulates
total_w = Σ r_i·w_i and total_c = Σ r_i·(C_i + z_i·w_i) − g·(Σ r_i·v_i) −
gamma_g·(Σ r_i·random_v_i, 0 when absent), and returns Ok(true) iff the
multi-pairing product over {(−total_w, prepared_beta_h), (total_c,
prepared_h)} is the target-group identity, which holds iff
pairing(total_w, beta_h) == pairing(total_c, h). -/
theorem C3_batch_check (vk : VerifierKey F) (commitments points values : List F)
    (proofs : List (Proof F)) (us : Nat → Nat) (n : Nat)
    (hcn : commitments.length = n) (hpn : points.length = n) (hvn : values.length = n)
    (hprn : proofs.length = n)
    (hprep1 : vk.prepared_h = vk.h) (hprep2 : vk.prepared_beta_h = vk.beta_h) :
    ∃ b, batch_check vk commitments points values proofs us = .ok b
      ∧ (b = true ↔ product_of_pairings
           [(-(spec_total_w ((commitments.zip (points.zip values)).zip proofs) (rSeq us)),
             vk.prepared_beta_h),
            (spec_total_c ((commitments.zip (points.zip values)).zip proofs) (rSeq us)
               vk.g vk.gamma_g, vk.prepared_h)] = 0)
      ∧ (product_of_pairings
           [(-(spec_total_w ((commitments.zip (points.zip values)).zip proofs) (rSeq us)),
             vk.prepared_beta_h),
            (spec_total_c ((commitments.zip (points.zip values)).zip proofs) (rSeq us)
               vk.g vk.gamma_g, vk.prepared_h)] = 0
          ↔ pairing (spec_total_w ((commitments.zip (points.zip values)).zip proofs)
                (rSeq us)) vk.beta_h
            = pairing (spec_total_c ((commitments.zip (points.zip values)).zip proofs)
                (rSeq us) vk.g vk.gamma_g) vk.h) := by
  have hw : (0 : F) + indexedSum
        (fun j e => e.2.w * rSeq us j)
        ((commitments.zip (points.zip values)).zip proofs) 0
      = spec_total_w ((commitments.zip (points.zip values)).zip proofs) (rSeq us) := by
    rw [zero_add, spec_total_w]
    exact indexedSum_congr _ _ _ (fun i a => by ring) 0
  have hcsum : (0 : F) + indexedSum
        (fun j e => (e.2.w * e.1.2.1 + e.1.1) * rSeq us j)
        ((commitments.zip (points.zip values)).zip proofs) 0
      = indexedSum (fun i e => rSeq us i * (e.1.1 + e.1.2.1 * e.2.w))
        ((commitments.zip (points.zip values)).zip proofs) 0 := by
    rw [zero_add]
    exact indexedSum_congr _ _ _ (fun i a => by ring) 0
  have hbc : batch_check vk commitments points values proofs us
      = .ok (decide (product_of_pairings
          [(-(spec_total_w ((commitments.zip (points.zip values)).zip proofs) (rSeq us)),
            vk.prepared_beta_h),
           (spec_total_c ((commitments.zip (points.zip values)).zip proofs) (rSeq us)
              vk.g vk.gamma_g, vk.prepared_h)] = 0)) := by
    simp only [batch_check]
    rw [show (1 : F) = rSeq us 0 from rfl]
    rw [bcLoop_eq us ((commitments.zip (points.zip values)).zip proofs) 0 0 0 0 0]
    rw [hw, hcsum]
    simp only [spec_total_c, zero_add]
  refine ⟨_, hbc, by simp [decide_eq_true_eq], ?_⟩
  simp only [product_of_pairings, List.map_cons, List.map_nil, List.sum_cons,
    List.sum_nil, pairing, hprep1, hprep2]
  constructor
  · intro h1
    linear_combination (-1 : F) * h1
  · intro h1
    linear_combination (-1 : F) * h1

/-- C8 counterexample: with the explicit list LIST [1, 0] the bound 1 IS in
the resolved set and satisfies degree(p) ≤ 1 ≤ max_degree, yet
check_degrees_and_bounds returns Err(UnsupportedDegreeBound(1)) — binary
search over the unsorted list misses the present element — refuting the
claim's "Err(UnsupportedDegreeBound(b)) iff b is not in the set". -/
theorem C8_counterexample :
    check_degrees_and_bounds (F := ZMod 101) 1 1
      (some ((KZG10DegreeBoundsConfig.LIST [1, 0]).get_list 1))
      ⟨"f", [5], some 1⟩ = .error (.UnsupportedDegreeBound 1)
    ∧ 1 ∈ (KZG10DegreeBoundsConfig.LIST [1, 0]).get_list 1
    ∧ degree ([5] : List (ZMod 101)) ≤ 1 ∧ 1 ≤ 1 := by decide

/-- C8 amended: for every resolved degree-bound set (as produced by
KZG10DegreeBoundsConfig::get_list, including an explicit LIST taken as
given), check_degrees_and_bounds on a polynomial with explicit bound b
returns Err(UnsupportedDegreeBound(b)) iff binary search over the resolved
list fails to locate b; returns Err(IncorrectDegreeBound) iff binary search
locates b but b < degree(p) or b > max_degree; returns Ok(()) otherwise;
and a polynomial carrying no bound always passes. -/
theorem C8_amended (c : KZG10DegreeBoundsConfig) (sd md : Nat) (lbl : String)
    (poly : List F) (b : Nat) :
    (check_degrees_and_bounds sd md (some (c.get_list md)) ⟨lbl, poly, some b⟩
        = .error (.UnsupportedDegreeBound b)
      ↔ (binary_search (c.get_list md) b).isOk = false)
    ∧ (check_degrees_and_bounds sd md (some (c.get_list md)) ⟨lbl, poly, some b⟩
        = .error (.IncorrectDegreeBound (degree poly) b sd lbl)
      ↔ (binary_search (c.get_list md) b).isOk = true ∧ (b < degree poly ∨ md < b))
    ∧ ((binary_search (c.get_list md) b).isOk = true → ¬ (b < degree poly ∨ md < b) →
        check_degrees_and_bounds sd md (some (c.get_list md)) ⟨lbl, poly, some b⟩
          = .ok ())
    ∧ check_degrees_and_bounds sd md (some (c.get_list md)) ⟨lbl, poly, none⟩
        = .ok () := by
  cases hbs : binary_search (c.get_list md) b with
  | error k =>
    refine ⟨?_, ?_, ?_, rfl⟩
    · simp [check_degrees_and_bounds, hbs, Except.isOk, Except.toBool]
    · simp [check_degrees_and_bounds, hbs, Except.isOk, Except.toBool]
    · intro hok
      simp [Except.isOk, Except.toBool] at hok
  | ok k =>
    by_cases hcond : b < degree poly ∨ md < b
    · refine ⟨?_, ?_, ?_, rfl⟩
      · simp [check_degrees_and_bounds, hbs, hcond, Except.isOk, Except.toBool]
      · simp [check_degrees_and_bounds, hbs, hcond, Except.isOk, Except.toBool]
      · intro _ hnc
        exact absurd hcond hnc
    · refine ⟨?_, ?_, ?_, rfl⟩
      · simp [check_degrees_and_bounds, hbs, hcond, Except.isOk, Except.toBool]
      · simp [check_degrees_and_bounds, hbs, hcond, Except.isOk, Except.toBool]
      · intro _ _
        simp [check_degrees_and_bounds, hbs, hcond]

/-- C9 counterexample: for the SRS of max_degree 1 and requested
supported_degree d = 1 (which satisfies the claim's preconditions 1 ≤ d and
d ≤ max_degree), trim raises d to 2 and then panics slicing
powers_of_g[..=2] out of a 2-element list (modelled as `none`) — refuting
the claim's "it has no failure mode under these preconditions". -/
theorem C9_counterexample :
    setup (F := ZMod 101) 1 .NONE false 2 3 5 7 = some (.ok ppEx1)
    ∧ ppEx1.powers_of_g.length = 2
    ∧ trim ppEx1 1 = none := by decide

/-- C9 amended: trim uses d' = 2 when d = 1 and d' = d otherwise, and —
provided d' + 1 ≤ length(powers_of_g) and d' + 1 ≤ length(powers_of_gamma_g)
(which strengthens the claimed precondition d ≤ max_degree exactly when
d = 1 = max_degree) — returns Powers made of powers_of_g[0..=d'] and
powers_of_gamma_g[0..=d'] and a VerifierKey with g = powers_of_g[0],
gamma_g = powers_of_gamma_g[0] and h, beta_h, prepared_h, prepared_beta_h
copied from the parameters, with no failure mode. -/
theorem C9_amended (pp : UniversalParams F) (d : Nat)
    (hlen1 : (if d = 1 then d + 1 else d) + 1 ≤ pp.powers_of_g.length)
    (hlen2 : (if d = 1 then d + 1 else d) + 1 ≤ pp.powers_of_gamma_g.length) :
    trim pp d = some
      (⟨pp.powers_of_g.take ((if d = 1 then d + 1 else d) + 1),
        pp.powers_of_gamma_g.take ((if d = 1 then d + 1 else d) + 1)⟩,
       ⟨pp.powers_of_g.getD 0 0, pp.powers_of_gamma_g.getD 0 0,
        pp.h, pp.beta_h, pp.prepared_h, pp.prepared_beta_h⟩) := by
  unfold trim
  rw [if_pos ⟨hlen1, hlen2⟩]

/-! ### Concrete witnesses -/

/-- Witness for C1 at β = 2, g = 3, γg = 5, h = 7, max_degree 4, p = [1,2,3],
z = 10, no hiding, over ZMod 101. -/
theorem C1_completeness_witness :
    check vkEx cEx 10 (evalPoly [1, 2, 3] 10) prEx = .ok true :=
  C1_completeness (F := ZMod 101) 2 3 5 7 4 4 [1, 2, 3] 10 none none ppEx powersEx
    vkEx cEx Randomness.empty prEx (by decide) (Or.inl rfl) (by decide) (by decide)
    (by decide) (by decide) (by decide)

/-- Witness for C3 on a singleton batch over ZMod 101. -/
theorem C3_batch_check_witness :
    ∃ b, batch_check vkEx [cEx] [10] [evalPoly [1, 2, 3] 10] [prEx] (fun _ => 7) = .ok b
      ∧ (b = true ↔ product_of_pairings
           [(-(spec_total_w (([cEx].zip ([(10 : ZMod 101)].zip [evalPoly [1, 2, 3] 10])).zip
                [prEx]) (rSeq (fun _ => 7))), vkEx.prepared_beta_h),
            (spec_total_c (([cEx].zip ([(10 : ZMod 101)].zip [evalPoly [1, 2, 3] 10])).zip
                [prEx]) (rSeq (fun _ => 7)) vkEx.g vkEx.gamma_g, vkEx.prepared_h)] = 0)
      ∧ (product_of_pairings
           [(-(spec_total_w (([cEx].zip ([(10 : ZMod 101)].zip [evalPoly [1, 2, 3] 10])).zip
                [prEx]) (rSeq (fun _ => 7))), vkEx.prepared_beta_h),
            (spec_total_c (([cEx].zip ([(10 : ZMod 101)].zip [evalPoly [1, 2, 3] 10])).zip
                [prEx]) (rSeq (fun _ => 7)) vkEx.g vkEx.gamma_g, vkEx.prepared_h)] = 0
          ↔ pairing (spec_total_w (([cEx].zip ([(10 : ZMod 101)].zip
                [evalPoly [1, 2, 3] 10])).zip [prEx]) (rSeq (fun _ => 7))) vkEx.beta_h
            = pairing (spec_total_c (([cEx].zip ([(10 : ZMod 101)].zip
                [evalPoly [1, 2, 3] 10])).zip [prEx]) (rSeq (fun _ => 7))
                vkEx.g vkEx.gamma_g) vkEx.h) :=
  C3_batch_check vkEx [cEx] [10] [evalPoly [1, 2, 3] 10] [prEx] (fun _ => 7) 1
    (by decide) (by decide) (by decide) (by decide) (by decide) (by decide)

/-- Witness for C4 at p = [1,2,3], z = 10, empty randomness, over ZMod 101. -/
theorem C4_witness_quotient_witness :
    ∃ w hw, compute_witness_polynomial ([1, 2, 3] : List (ZMod 101)) 10
        Randomness.empty = .ok (w, hw)
      ∧ w = divPoly ([1, 2, 3] : List (ZMod 101)) 10
      ∧ divPoly (polySub ([1, 2, 3] : List (ZMod 101)) [evalPoly [1, 2, 3] 10]) 10
          = divPoly ([1, 2, 3] : List (ZMod 101)) 10
      ∧ truncate (polyAdd (mulLinear 10 w) [evalPoly ([1, 2, 3] : List (ZMod 101)) 10])
          = [1, 2, 3]
      ∧ (divmodLinear ([1, 2, 3] : List (ZMod 101)) 10).2
          = evalPoly ([1, 2, 3] : List (ZMod 101)) 10
      ∧ hw = (if (Randomness.empty (F := ZMod 101)).is_hiding
              then some (divPoly (Randomness.empty (F := ZMod 101)).blinding_polynomial 10)
              else none) :=
  C4_witness_quotient [1, 2, 3] 10 Randomness.empty (by decide)

/-- Witness for C6 at p = [1], hiding degree 2, the concrete sampler, over
ZMod 101. -/
theorem C6_hiding_requirements_witness :
    commit powersEx [1] (some 2) false none = some (.error .MissingRng)
    ∧ (commit powersEx [1] (some 2) false (some sampleEx)
        = some (.error .HidingBoundIsZero) ↔ 2 = 0)
    ∧ (commit powersEx [1] (some 2) false (some sampleEx)
        = some (.error (.HidingBoundToolarge 2 powersEx.powers_of_gamma_g.length))
      ↔ 2 ≠ 0 ∧ powersEx.powers_of_gamma_g.length ≤ 2)
    ∧ ∃ c, commit powersEx [1] none false none = some (.ok (c, Randomness.empty)) :=
  C6_hiding_requirements powersEx [1] 2 sampleEx (by decide) (by decide) (by decide)

/-- Witness for C7, extracting the success-branch facts at max_degree 2 over
ZMod 101. -/
theorem C7_setup_witness :
    ppEx2.powers_of_g = (List.range 3).map (fun i => (2 : ZMod 101) ^ i * 3)
    ∧ ppEx2.powers_of_g.length = 3
    ∧ ppEx2.powers_of_gamma_g = (List.range 4).map (fun i => (2 : ZMod 101) ^ i * 5)
    ∧ ppEx2.powers_of_gamma_g.length = 4
    ∧ ppEx2.beta_h = 2 * 7 :=
  (C7_setup (F := ZMod 101) 2 .NONE false 2 3 5 7).2.2 ppEx2 (by decide)

/-- Witness for the amended C8 at the sorted list [0, 2, 4] over ZMod 101. -/
theorem C8_amended_witness :
    (check_degrees_and_bounds (F := ZMod 101) 1 5
        (some ((KZG10DegreeBoundsConfig.LIST [0, 2, 4]).get_list 5)) ⟨"w", [3, 4], some 2⟩
        = .error (.UnsupportedDegreeBound 2)
      ↔ (binary_search ((KZG10DegreeBoundsConfig.LIST [0, 2, 4]).get_list 5) 2).isOk
          = false)
    ∧ (check_degrees_and_bounds (F := ZMod 101) 1 5
        (some ((KZG10DegreeBoundsConfig.LIST [0, 2, 4]).get_list 5)) ⟨"w", [3, 4], some 2⟩
        = .error (.IncorrectDegreeBound (degree ([3, 4] : List (ZMod 101))) 2 1 "w")
      ↔ (binary_search ((KZG10DegreeBoundsConfig.LIST [0, 2, 4]).get_list 5) 2).isOk
          = true ∧ (2 < degree ([3, 4] : List (ZMod 101)) ∨ 5 < 2))
    ∧ ((binary_search ((KZG10DegreeBoundsConfig.LIST [0, 2, 4]).get_list 5) 2).isOk
          = true →
        ¬ (2 < degree ([3, 4] : List (ZMod 101)) ∨ 5 < 2) →
        check_degrees_and_bounds (F := ZMod 101) 1 5
          (some ((KZG10DegreeBoundsConfig.LIST [0, 2, 4]).get_list 5)) ⟨"w", [3, 4], some 2⟩
          = .ok ())
    ∧ check_degrees_and_bounds (F := ZMod 101) 1 5
        (some ((KZG10DegreeBoundsConfig.LIST [0, 2, 4]).get_list 5)) ⟨"w", [3, 4], none⟩
        = .ok () :=
  C8_amended (F := ZMod 101) (.LIST [0, 2, 4]) 1 5 "w" [3, 4] 2

/-- Witness for the amended C9 at the max_degree-4 SRS, d = 4, over ZMod 101. -/
theorem C9_amended_witness :
    trim ppEx 4 = some
      (⟨ppEx.powers_of_g.take 5, ppEx.powers_of_gamma_g.take 5⟩,
       ⟨ppEx.powers_of_g.getD 0 0, ppEx.powers_of_gamma_g.getD 0 0,
        ppEx.h, ppEx.beta_h, ppEx.prepared_h, ppEx.prepared_beta_h⟩) :=
  C9_amended ppEx 4 (by decide) (by decide)

/-- Witness for C10 at the all-zero polynomial [0, 0] over ZMod 101. -/
theorem C10_zero_polynomial_panics_witness :
    skip_leading_zeros ([0, 0] : List (ZMod 101)) = none
    ∧ commit powersEx [0, 0] none false none = none
    ∧ openProof powersEx [0, 0] 10 Randomness.empty = none :=
  C10_zero_polynomial_panics powersEx [0, 0] 10 Randomness.empty none none
    (by decide) (by decide)

end KZG
